import Mathlib

/-!
Verification of the motion-estimation core of `find_motion.c`.

The program computes 16x16 block-based motion vectors between two grayscale
frames: a 3x3 in-place median filter (`median3x3`), an exhaustive
block-matching search (`compute_sad`, `match`, `full_search`) and a
statistics reducer (`quick_sqrt`, `compute_statistics`).

Shallow embedding conventions:
* a pixel buffer (C `uint8 *`) is a total function `Img := Int → Nat`;
  pixel values are unsigned 8-bit samples, so theorems that need it carry
  the hypothesis `∀ i, img i ≤ 255`;
* C `int` arithmetic on positions and indices is `Int` (no overflow occurs
  in the contract range: SAD sums are at most 16*16*255 = 65280);
* the C `for` loops become folds over the explicit lists of visited loop
  indices, in the same order as the C iteration;
* frame buffers are borrowed, so mutation (`median3x3`) is explicit state
  passing: each interior pixel is updated in place, row-major, and later
  neighborhoods read the already-updated buffer.
-/

/-- A pixel buffer: row-major index to 8-bit sample (C `uint8 *`). -/
abbrev Img := Int → Nat

/-- C macro `BSIZE`: block size for motion estimation. -/
def BSIZE : Nat := 16

/-- C macro `MSTEP`: step size between motion vectors. -/
def MSTEP : Int := 8

/-- C `INT_MAX`, the initial value of `min_sad` in `match`. -/
def INT_MAX : Nat := 2147483647

/-- C `compute_sad(prev, curr, width, px, py, cx, cy)`: sum over a 16x16
block of the absolute differences between `prev` anchored at `(px, py)`
and `curr` anchored at `(cx, cy)`, both row-major with row stride `width`. -/
def compute_sad (prev curr : Img) (width px py cx cy : Int) : Nat :=
  (List.range BSIZE).foldl (fun (sad : Nat) (y : Nat) =>
    (List.range BSIZE).foldl (fun (sad : Nat) (x : Nat) =>
      sad + ((prev ((py + (y : Int)) * width + (px + (x : Int))) : Int)
             - (curr ((cy + (y : Int)) * width + (cx + (x : Int))) : Int)).natAbs) sad) 0

/-- The candidate displacements `(mvy, mvx)` visited by the two loops of
`match`, in C iteration order: `mvy` ascending outer, `mvx` ascending
inner, each running over `-BSIZE .. BSIZE-1`, i.e. `[-16, 15]`. -/
def cands : List (Int × Int) :=
  (List.range (2 * BSIZE)).flatMap fun (my : Nat) =>
    (List.range (2 * BSIZE)).map fun (mx : Nat) => ((my : Int) - 16, (mx : Int) - 16)

/-- One iteration of the search loop body of `match`: compute the SAD `s c`
of candidate `c = (mvy, mvx)` and replace the running best
`(min_sad, x, y)` whenever `sad <= min_sad` (non-strict comparison, as in
the C source). -/
def bestFold (s : Int × Int → Nat) (l : List (Int × Int)) (st : Nat × Int × Int) :
    Nat × Int × Int :=
  l.foldl (fun st c => if s c ≤ st.1 then (s c, c.2, c.1) else st) st

/-- The SAD evaluated by `match` for displacement `c = (mvy, mvx)`:
candidate block in `prev` anchored at `(posx+mvx, posy+mvy)`, fixed block
in `curr` anchored at `(posx, posy)`. -/
def sadAt (prev curr : Img) (width posx posy : Int) (c : Int × Int) : Nat :=
  compute_sad prev curr width (posx + c.2) (posy + c.1) posx posy

/-- C `match(&x, &y, posx, posy, prev, curr, width)` (`match` is a Lean
keyword, hence the name `matchMV`): full search over `cands` starting from
`min_sad = INT_MAX`, returning `(min_sad, x, y) = (min_sad, mvx, mvy)`.
In C the output variables are uninitialized before the loop; since every
SAD of 8-bit samples is at most 65280 < INT_MAX the first candidate always
overwrites them, and the embedding's initial `(0, 0)` is never returned
(under the 8-bit sample hypothesis). -/
def matchMV (posx posy : Int) (prev curr : Img) (width : Int) : Nat × Int × Int :=
  bestFold (sadAt prev curr width posx posy) cands (INT_MAX, 0, 0)

/-- Fold writing `val c` at index `key c` of a store, for each `c` in `L`
in order; shared shape of the output-field loop of `full_search`. -/
def setFold {α β : Type} (key : α → Int) (val : α → β) (L : List α)
    (init : Int → β) : Int → β :=
  L.foldl (fun st c => fun i => if i = key c then val c else st i) init

/-- Loop-index list of `for (i = 2; i < n - 4; i++)`: the grid coordinates
`2 .. n-5` visited by each of the two loops of `full_search`. -/
def idxRange (n : Int) : List Int :=
  (List.range (n - 6).toNat).map fun (k : Nat) => (k : Int) + 2

/-- The grid cells `(idy, idx)` visited by the nested loops of
`full_search`, in C order: `idy` ascending outer, `idx` ascending inner. -/
def cellList (ny nx : Int) : List (Int × Int) :=
  (idxRange ny).flatMap fun idy => (idxRange nx).map fun idx => (idy, idx)

/-- C `full_search(mv, prev_image, curr_image, width, height)`: for each
grid cell `(idy, idx)` with `2 ≤ idx < nx-4` and `2 ≤ idy < ny-4`
(`nx = width/MSTEP`, `ny = height/MSTEP`, C `int` division truncating
toward zero), run `match` at anchor `(idx*MSTEP, idy*MSTEP)` and store the
returned `(x, y)` at field index `idy*nx + idx`.  The field is the
zero-initialized `mv[]` buffer allocated and `memset` by `main`, so the
embedding starts from the constant-zero store. -/
def full_search (prev curr : Img) (width height : Int) : Int → Int × Int :=
  setFold (fun cell => cell.1 * (width.tdiv MSTEP) + cell.2)
    (fun cell => (matchMV (cell.2 * MSTEP) (cell.1 * MSTEP) prev curr width).2)
    (cellList (height.tdiv MSTEP) (width.tdiv MSTEP))
    (fun _ => (0, 0))

/-- C `matrix_to_array(pix_array, ptr, width)`: the 9 samples of the 3x3
neighborhood of the pixel at buffer offset `ptr`, row-major top-left to
bottom-right (`y` from -1 to 1 outer, `x` from -1 to 1 inner). -/
def matrix_to_array (img : Img) (width ptr : Int) : List Nat :=
  (List.range 3).flatMap fun (y : Nat) =>
    (List.range 3).map fun (x : Nat) => img (ptr + ((x : Int) - 1) + width * ((y : Int) - 1))

/-- The inner loop of C `insertion_sort` for one value of `idx`, run on the
prefix `a[0..idx]`: for `jdx = idx` down to `1`, swap `a[jdx-1], a[jdx]`
when `a[jdx] < a[jdx-1]`.  The recursion processes the pair nearest the
end of the list first and the head pair last, exactly the descending-`jdx`
order of the C loop. -/
def sortPass : List Nat → List Nat
  | [] => []
  | [x] => [x]
  | x :: y :: t =>
    match sortPass (y :: t) with
    | [] => [x]
    | z :: t' => if z < x then z :: x :: t' else x :: z :: t'

/-- The outer loop of C `insertion_sort`: for `idx = 1` to `size - 1`, run
the inner loop on the prefix `a[0..idx]` (`fuel` counts the remaining
iterations, `size - idx`); elements beyond position `idx` are untouched by
iteration `idx`. -/
def isortAux : Nat → Nat → List Nat → List Nat
  | _, 0, a => a
  | idx, fuel + 1, a =>
    isortAux (idx + 1) fuel (sortPass (a.take (idx + 1)) ++ a.drop (idx + 1))

/-- C `insertion_sort(pix_array, size)` with `size = a.length`. -/
def insertion_sort (a : List Nat) : List Nat :=
  isortAux 1 (a.length - 1) a

/-- One interior-pixel update of `median3x3`: gather the 3x3 neighborhood
of buffer offset `ptr` from the *current* image, `insertion_sort` it, and
write element 4 (`pix_array[4]`) back at `ptr`. -/
def medianStep (width : Int) (im : Img) (ptr : Int) : Img :=
  fun i => if i = ptr then (insertion_sort (matrix_to_array im width ptr)).getD 4 0 else im i

/-- Loop-index list of `for (i = 1; i < n - 1; i++)`: the coordinates
`1 .. n-2` visited by each of the two loops of `median3x3`. -/
def rowRange (n : Int) : List Int :=
  (List.range (n - 2).toNat).map fun (k : Nat) => (k : Int) + 1

/-- The buffer offsets `row*width + col` of the interior pixels visited by
`median3x3`, in C order: `row` ascending outer, `col` ascending inner
(row-major, left to right). -/
def cellPtrs (width height : Int) : List Int :=
  (rowRange height).flatMap fun row => (rowRange width).map fun col => row * width + col

/-- C `median3x3(image, width, height)`: in-place 3x3 median filter over
the interior pixels, row-major; each update reads the already partially
updated buffer. -/
def median3x3 (image : Img) (width height : Int) : Img :=
  (cellPtrs width height).foldl (medianStep width) image

/-- Spec-worded interior-pixel update: the pixel is replaced by the 5th
smallest value (index 4) of the 9 neighborhood samples sorted ascending
(Mathlib's `List.insertionSort`). -/
def medianStepSpec (width : Int) (im : Img) (ptr : Int) : Img :=
  fun i =>
    if i = ptr then (List.insertionSort (· ≤ ·) (matrix_to_array im width ptr)).getD 4 0
    else im i

/-- Spec-worded median filter: same in-place, row-major, left-to-right
scan as `median3x3`, with the pixel replaced by the 5th smallest value of
its ascending-sorted 3x3 neighborhood. -/
def medianFilterSpec (image : Img) (width height : Int) : Img :=
  (cellPtrs width height).foldl (medianStepSpec width) image

/-- One iteration of the loop body of C `compute_statistics`, with the
floating-point `quick_sqrt` abstracted as a function `qsqrt` on the exact
integer argument `mv[idx].x² + mv[idx].y²` (the C cast `(float)` of an
`int` square sum).  State is `(total, min, max)`; C updates `min` when
`length < *min` and `max` when `length > *max`. -/
def statsStep (qsqrt : Nat → ℚ) (mv : Int → Int × Int) (st : ℚ × ℚ × ℚ) (idx : Nat) :
    ℚ × ℚ × ℚ :=
  let v := mv (idx : Int)
  let length := qsqrt (v.1 * v.1 + v.2 * v.2).toNat
  (st.1 + length,
   if length < st.2.1 then length else st.2.1,
   if st.2.2 < length then length else st.2.2)

/-- C `compute_statistics(&mean, &min, &max, mv, size)`: fold over
`idx = 0 .. size-1` starting from `total = *min = *max = 0`, returning
`(mean, min, max)` with `*mean = total / size`.  The square-root routine
`quick_sqrt` is single-precision floating-point bit manipulation; it is
passed in as the abstract magnitude function `qsqrt`. -/
def compute_statistics (qsqrt : Nat → ℚ) (mv : Int → Int × Int) (size : Nat) :
    ℚ × ℚ × ℚ :=
  let r := (List.range size).foldl (statsStep qsqrt mv) (0, 0, 0)
  (r.1 / (size : ℚ), r.2.1, r.2.2)

/-- Strict lexicographic order on `(mvy, mvx)` pairs: the order in which
`match` visits its candidates. -/
abbrev lexLt (a b : Int × Int) : Prop :=
  a.1 < b.1 ∨ (a.1 = b.1 ∧ a.2 < b.2)

/-! ### Generic lemmas about the fold shapes used by the embedding -/

theorem foldl_skip {α β : Type} : ∀ (l : List α) (b : β), l.foldl (fun s _ => s) b = b
  | [], _ => rfl
  | _ :: l, b => foldl_skip l b

theorem setFold_cons {α β : Type} (key : α → Int) (val : α → β) (c : α) (L : List α)
    (init : Int → β) :
    setFold key val (c :: L) init
      = setFold key val L (fun i => if i = key c then val c else init i) := rfl

theorem setFold_append_singleton {α β : Type} (key : α → Int) (val : α → β) (L : List α)
    (d : α) (init : Int → β) (i : Int) :
    setFold key val (L ++ [d]) init i
      = if i = key d then val d else setFold key val L init i := by
  simp [setFold, List.foldl_append]

theorem setFold_not_mem {α β : Type} (key : α → Int) (val : α → β) (L : List α)
    (init : Int → β) (i : Int) (h : ∀ c ∈ L, key c ≠ i) :
    setFold key val L init i = init i := by
  induction L generalizing init with
  | nil => rfl
  | cons c L ih =>
    rw [setFold_cons, ih _ (fun e he => h e (List.mem_cons_of_mem c he))]
    have hc : i ≠ key c := fun hh => h c (List.mem_cons_self c L) hh.symm
    simp [hc]

theorem setFold_mem_unique {α β : Type} (key : α → Int) (val : α → β) (L : List α)
    (init : Int → β) (c : α) (hc : c ∈ L)
    (huniq : ∀ c' ∈ L, key c' = key c → c' = c) :
    setFold key val L init (key c) = val c := by
  induction L using List.reverseRecOn with
  | nil => cases hc
  | append_singleton L d ih =>
    rw [setFold_append_singleton]
    by_cases hkey : key c = key d
    · have hdc : d = c := huniq d (List.mem_append_right _ (by simp)) hkey.symm
      subst hdc
      simp
    · rw [if_neg hkey]
      have hcL : c ∈ L := by
        rcases List.mem_append.mp hc with h | h
        · exact h
        · exfalso
          have : c = d := by simpa using h
          exact hkey (by rw [this])
      exact ih hcL (fun c' h' he => huniq c' (List.mem_append_left _ h') he)

theorem setFold_range {α β : Type} (key : α → Int) (val : α → β) (L : List α)
    (init : Int → β) (i : Int) :
    setFold key val L init i = init i ∨ ∃ c ∈ L, setFold key val L init i = val c := by
  induction L generalizing init with
  | nil => exact Or.inl rfl
  | cons c L ih =>
    rw [setFold_cons]
    rcases ih (fun j => if j = key c then val c else init j) with h | ⟨e, he, hv⟩
    · rw [h]
      by_cases hi : i = key c
      · exact Or.inr ⟨c, List.mem_cons_self c L, by simp [hi]⟩
      · simp [hi]
    · exact Or.inr ⟨e, List.mem_cons_of_mem c he, hv⟩

/-! ### Loop-range membership and linear-index injectivity -/

theorem mem_idxRange {n k : Int} : k ∈ idxRange n ↔ 2 ≤ k ∧ k < n - 4 := by
  constructor
  · intro h
    rcases List.mem_map.mp h with ⟨j, hj, rfl⟩
    rw [List.mem_range] at hj
    omega
  · intro h
    refine List.mem_map.mpr ⟨(k - 2).toNat, List.mem_range.mpr ?_, ?_⟩ <;> omega

theorem mem_rowRange {n k : Int} : k ∈ rowRange n ↔ 1 ≤ k ∧ k < n - 1 := by
  constructor
  · intro h
    rcases List.mem_map.mp h with ⟨j, hj, rfl⟩
    rw [List.mem_range] at hj
    omega
  · intro h
    refine List.mem_map.mpr ⟨(k - 1).toNat, List.mem_range.mpr ?_, ?_⟩ <;> omega

theorem mem_cellList {ny nx : Int} {p : Int × Int} :
    p ∈ cellList ny nx ↔ (2 ≤ p.1 ∧ p.1 < ny - 4) ∧ (2 ≤ p.2 ∧ p.2 < nx - 4) := by
  obtain ⟨idy, idx⟩ := p
  constructor
  · intro h
    rcases List.mem_flatMap.mp h with ⟨a, ha, hb⟩
    rcases List.mem_map.mp hb with ⟨b, hbm, he⟩
    rw [Prod.mk.injEq] at he
    obtain ⟨rfl, rfl⟩ := he
    exact ⟨mem_idxRange.mp ha, mem_idxRange.mp hbm⟩
  · rintro ⟨h1, h2⟩
    exact List.mem_flatMap.mpr ⟨idy, mem_idxRange.mpr h1,
      List.mem_map.mpr ⟨idx, mem_idxRange.mpr h2, rfl⟩⟩

theorem mem_cellPtrs {w h q : Int} :
    q ∈ cellPtrs w h ↔
      ∃ row col : Int, (1 ≤ row ∧ row < h - 1) ∧ (1 ≤ col ∧ col < w - 1) ∧
        q = row * w + col := by
  constructor
  · intro hq
    rcases List.mem_flatMap.mp hq with ⟨row, hrow, hb⟩
    rcases List.mem_map.mp hb with ⟨col, hcol, he⟩
    exact ⟨row, col, mem_rowRange.mp hrow, mem_rowRange.mp hcol, he.symm⟩
  · rintro ⟨row, col, h1, h2, rfl⟩
    exact List.mem_flatMap.mpr ⟨row, mem_rowRange.mpr h1,
      List.mem_map.mpr ⟨col, mem_rowRange.mpr h2, rfl⟩⟩

theorem mem_cands {c : Int × Int} :
    c ∈ cands ↔ -16 ≤ c.1 ∧ c.1 < 16 ∧ -16 ≤ c.2 ∧ c.2 < 16 := by
  obtain ⟨my, mx⟩ := c
  constructor
  · intro h
    rcases List.mem_flatMap.mp h with ⟨a, ha, hb⟩
    rcases List.mem_map.mp hb with ⟨b, hbm, he⟩
    rw [List.mem_range] at ha hbm
    simp only [BSIZE] at ha hbm
    rw [Prod.mk.injEq] at he
    obtain ⟨h1, h2⟩ := he
    subst h1
    subst h2
    exact ⟨by omega, by omega, by omega, by omega⟩
  · rintro ⟨h1, h2, h3, h4⟩
    refine List.mem_flatMap.mpr ⟨(my + 16).toNat, List.mem_range.mpr (by simp [BSIZE]; omega), ?_⟩
    refine List.mem_map.mpr ⟨(mx + 16).toNat, List.mem_range.mpr (by simp [BSIZE]; omega), ?_⟩
    rw [Prod.mk.injEq]
    constructor <;> omega

theorem linear_index_inj (nx idx idx' idy idy' : Int) (h1 : 0 ≤ idx) (h2 : idx < nx)
    (h3 : 0 ≤ idx') (h4 : idx' < nx)
    (he : idy * nx + idx = idy' * nx + idx') : idy = idy' ∧ idx = idx' := by
  have hnx : 0 < nx := lt_of_le_of_lt h1 h2
  have key : (idy - idy') * nx = idx' - idx := by linear_combination he
  rcases lt_trichotomy idy idy' with hlt | heq | hgt
  · exfalso
    have hstep : idy - idy' ≤ -1 := by omega
    have := mul_le_mul_of_nonneg_right hstep (le_of_lt hnx)
    rw [key] at this
    omega
  · refine ⟨heq, ?_⟩
    subst heq
    simp at key
    omega
  · exfalso
    have hstep : (1 : Int) ≤ idy - idy' := by omega
    have := mul_le_mul_of_nonneg_right hstep (le_of_lt hnx)
    rw [key] at this
    omega

/-! ### The search loop of `match` -/

theorem bestFold_cons (s : Int × Int → Nat) (c : Int × Int) (l : List (Int × Int))
    (st : Nat × Int × Int) :
    bestFold s (c :: l) st
      = bestFold s l (if s c ≤ st.1 then (s c, c.2, c.1) else st) := rfl

theorem bestFold_append_singleton (s : Int × Int → Nat) (l : List (Int × Int))
    (d : Int × Int) (st : Nat × Int × Int) :
    bestFold s (l ++ [d])  st
      = if s d ≤ (bestFold s l st).1 then (s d, d.2, d.1) else bestFold s l st := by
  simp [bestFold, List.foldl_append]

theorem bestFold_fst_le_init (s : Int × Int → Nat) (l : List (Int × Int))
    (st : Nat × Int × Int) : (bestFold s l st).1 ≤ st.1 := by
  induction l generalizing st with
  | nil => exact le_refl _
  | cons c l ih =>
    rw [bestFold_cons]
    refine le_trans (ih _) ?_
    by_cases h : s c ≤ st.1
    · simp [h]
    · simp [h]

theorem bestFold_fst_le (s : Int × Int → Nat) (l : List (Int × Int))
    (st : Nat × Int × Int) (c : Int × Int) (hc : c ∈ l) :
    (bestFold s l st).1 ≤ s c := by
  induction l generalizing st with
  | nil => cases hc
  | cons d l ih =>
    rw [bestFold_cons]
    rcases List.mem_cons.mp hc with rfl | hmem
    · refine le_trans (bestFold_fst_le_init s l _) ?_
      by_cases h : s c ≤ st.1
      · simp [h]
      · simp [h]
        exact le_of_not_le h
    · exact ih _ hmem

theorem bestFold_achieves (s : Int × Int → Nat) (l : List (Int × Int))
    (st : Nat × Int × Int) :
    bestFold s l st = st ∨ ∃ c ∈ l, bestFold s l st = (s c, c.2, c.1) := by
  induction l generalizing st with
  | nil => exact Or.inl rfl
  | cons c l ih =>
    rw [bestFold_cons]
    rcases ih (if s c ≤ st.1 then (s c, c.2, c.1) else st) with h | ⟨e, he, hv⟩
    · rw [h]
      by_cases hcond : s c ≤ st.1
      · exact Or.inr ⟨c, List.mem_cons_self c l, by simp [hcond]⟩
      · simp [hcond]
    · exact Or.inr ⟨e, List.mem_cons_of_mem c he, hv⟩

theorem lexLt_asymm {a b : Int × Int} (h1 : lexLt a b) (h2 : lexLt b a) : False := by
  rcases h1 with h | ⟨he, h⟩ <;> rcases h2 with h' | ⟨he', h'⟩ <;> omega

instance : IsTrans (Int × Int) lexLt where
  trans := by
    intro a b c h1 h2
    rcases h1 with h | ⟨he, h⟩ <;> rcases h2 with h' | ⟨he', h'⟩
    · exact Or.inl (lt_trans h h')
    · exact Or.inl (he' ▸ h)
    · exact Or.inl (he ▸ h')
    · exact Or.inr ⟨he.trans he', lt_trans h h'⟩

/-- The key tie-break lemma about the search loop: if `c` attains the
minimum SAD over the visited list `l` (and beats the initial best), and
every other candidate tying with `c` comes strictly earlier in the
visiting order (`l` is sorted by that order), then the loop's non-strict
`<=` replacement makes `c` — the last-visited tied minimizer — the final
answer. -/
theorem bestFold_last_tie (s : Int × Int → Nat) (l : List (Int × Int))
    (st : Nat × Int × Int) (c : Int × Int)
    (hsort : l.Pairwise lexLt) (hc : c ∈ l) (hle : s c ≤ st.1)
    (hmin : ∀ d ∈ l, s c ≤ s d)
    (hlast : ∀ d ∈ l, s d = s c → d = c ∨ lexLt d c) :
    bestFold s l st = (s c, c.2, c.1) := by
  induction l using List.reverseRecOn with
  | nil => cases hc
  | append_singleton l d ih =>
    rw [bestFold_append_singleton]
    by_cases hcd : c = d
    · subst hcd
      have hcle : s c ≤ (bestFold s l st).1 := by
        rcases bestFold_achieves s l st with h | ⟨e, he, hv⟩
        · rw [h]; exact hle
        · rw [hv]; exact hmin e (List.mem_append_left _ he)
      simp [hcle]
    · have hcl : c ∈ l := by
        rcases List.mem_append.mp hc with h | h
        · exact h
        · exact absurd (by simpa using h) hcd
      have hlex : lexLt c d :=
        (List.pairwise_append.mp hsort).2.2 c hcl d (by simp)
      have hne : s d ≠ s c := by
        intro he
        rcases hlast d (List.mem_append_right _ (by simp)) he with h | h
        · exact hcd h.symm
        · exact lexLt_asymm h hlex
      have hlt : s c < s d :=
        lt_of_le_of_ne (hmin d (List.mem_append_right _ (by simp))) (Ne.symm hne)
      have ihr : bestFold s l st = (s c, c.2, c.1) :=
        ih (List.Pairwise.sublist (List.sublist_append_left l [d]) hsort) hcl
          (fun e he => hmin e (List.mem_append_left _ he))
          (fun e he hse => hlast e (List.mem_append_left _ he) hse)
      rw [ihr]
      simp only [ihr] at *
      rw [if_neg (by simpa using not_le.mpr hlt)]

/-- Executable check that a candidate list is strictly increasing in the
visiting order; used to certify `cands` by evaluation. -/
def lexChainCheck : List (Int × Int) → Bool
  | [] => true
  | [_] => true
  | a :: b :: t => decide (lexLt a b) && lexChainCheck (b :: t)

theorem lexChainCheck_chain : ∀ l : List (Int × Int), lexChainCheck l = true → l.Chain' lexLt
  | [] , _ => List.chain'_nil
  | [_], _ => List.chain'_singleton _
  | a :: b :: t, h => by
    rw [lexChainCheck, Bool.and_eq_true] at h
    exact List.Chain'.cons (of_decide_eq_true h.1) (lexChainCheck_chain (b :: t) h.2)

set_option maxRecDepth 40000 in
theorem cands_chain : cands.Chain' lexLt :=
  lexChainCheck_chain cands (by decide)

theorem cands_pairwise : cands.Pairwise lexLt :=
  (List.chain'_iff_pairwise).mp cands_chain

/-! ### Bounds on `compute_sad` -/

theorem foldl_le_add {α : Type} (step : Nat → α → Nat) (k : Nat)
    (h : ∀ a x, step a x ≤ a + k) (l : List α) (a : Nat) :
    l.foldl step a ≤ a + k * l.length := by
  induction l generalizing a with
  | nil => simp
  | cons x l ih =>
    rw [List.foldl_cons, List.length_cons, Nat.mul_succ]
    have h1 := ih (step a x)
    have h2 := h a x
    omega

/-- Any SAD of 8-bit samples is at most `16*16*255 = 65280`, in particular
strictly below the initial `min_sad = INT_MAX`. -/
theorem compute_sad_le (prev curr : Img) (width px py cx cy : Int)
    (hp : ∀ i, prev i ≤ 255) (hc : ∀ i, curr i ≤ 255) :
    compute_sad prev curr width px py cx cy ≤ 65280 := by
  have hlen : (List.range BSIZE).length = 16 := by simp [BSIZE]
  have hinner : ∀ (y : Nat) (a : Nat),
      (List.range BSIZE).foldl (fun (sad : Nat) (x : Nat) =>
        sad + ((prev ((py + (y : Int)) * width + (px + (x : Int))) : Int)
               - (curr ((cy + (y : Int)) * width + (cx + (x : Int))) : Int)).natAbs) a
        ≤ a + 4080 := by
    intro y a
    have := foldl_le_add
      (fun (sad : Nat) (x : Nat) =>
        sad + ((prev ((py + (y : Int)) * width + (px + (x : Int))) : Int)
               - (curr ((cy + (y : Int)) * width + (cx + (x : Int))) : Int)).natAbs)
      255
      (by
        intro a x
        dsimp only
        have h1 := hp ((py + (y : Int)) * width + (px + (x : Int)))
        have h2 := hc ((cy + (y : Int)) * width + (cx + (x : Int)))
        omega)
      (List.range BSIZE) a
    rw [hlen] at this
    omega
  have := foldl_le_add
    (fun (sad : Nat) (y : Nat) =>
      (List.range BSIZE).foldl (fun (sad : Nat) (x : Nat) =>
        sad + ((prev ((py + (y : Int)) * width + (px + (x : Int))) : Int)
               - (curr ((cy + (y : Int)) * width + (cx + (x : Int))) : Int)).natAbs) sad)
    4080
    (fun a y => hinner y a) (List.range BSIZE) 0
  rw [hlen] at this
  exact le_trans this (by norm_num)

theorem sadAt_le (prev curr : Img) (width posx posy : Int) (c : Int × Int)
    (hp : ∀ i, prev i ≤ 255) (hc : ∀ i, curr i ≤ 255) :
    sadAt prev curr width posx posy c ≤ 65280 :=
  compute_sad_le _ _ _ _ _ _ _ hp hc

/-- On two identical constant images every SAD vanishes. -/
theorem compute_sad_const (k : Nat) (width px py cx cy : Int) :
    compute_sad (fun _ => k) (fun _ => k) width px py cx cy = 0 := by
  simp [compute_sad, foldl_skip]

theorem sadAt_const (k : Nat) (width posx posy : Int) (c : Int × Int) :
    sadAt (fun _ => k) (fun _ => k) width posx posy c = 0 :=
  compute_sad_const k width _ _ _ _

/-! ### Correctness of the C `insertion_sort` -/

theorem sortPass_perm : ∀ l : List Nat, (sortPass l).Perm l
  | [] => by simp [sortPass]
  | [x] => by simp [sortPass]
  | x :: y :: t => by
    have ih := sortPass_perm (y :: t)
    simp only [sortPass]
    cases hsp : sortPass (y :: t) with
    | nil =>
      rw [hsp] at ih
      simp at ih
    | cons z t' =>
      rw [hsp] at ih
      dsimp only
      by_cases hzx : z < x
      · rw [if_pos hzx]
        exact (List.Perm.swap x z t').trans (ih.cons x)
      · rw [if_neg hzx]
        exact ih.cons x

theorem sortPass_sorted : ∀ (p : List Nat) (x : Nat), p.Sorted (· ≤ ·) →
    (sortPass (p ++ [x])).Sorted (· ≤ ·)
  | [], x, _ => by simp [sortPass]
  | a :: p', x, hp => by
    have hp' : p'.Sorted (· ≤ ·) := (List.sorted_cons.mp hp).2
    have ha : ∀ b ∈ p', a ≤ b := (List.sorted_cons.mp hp).1
    have ih := sortPass_sorted p' x hp'
    have ihperm := sortPass_perm (p' ++ [x])
    rw [List.cons_append]
    obtain ⟨y, t, hyt⟩ : ∃ y t, p' ++ [x] = y :: t := by
      cases p' with
      | nil => exact ⟨x, [], rfl⟩
      | cons b p'' => exact ⟨b, p'' ++ [x], rfl⟩
    rw [hyt] at ih ihperm ⊢
    simp only [sortPass]
    cases hsp : sortPass (y :: t) with
    | nil =>
      rw [hsp] at ihperm
      simp at ihperm
    | cons z t' =>
      rw [hsp] at ih ihperm
      rw [← hyt] at ihperm
      dsimp only
      by_cases hza : z < a
      · rw [if_pos hza]
        have hzmem : z ∈ p' ++ [x] := (ihperm.subset (List.mem_cons_self z t'))
        have hzx : z = x := by
          rcases List.mem_append.mp hzmem with hz | hz
          · exact absurd hza (not_lt.mpr (ha z hz))
          · simpa using hz
        subst hzx
        have ht' : t'.Perm p' := by
          have h1 : (z :: t').Perm (z :: p') :=
            ihperm.trans (List.perm_append_singleton z p')
          exact h1.cons_inv
        have ht'sorted : t'.Sorted (· ≤ ·) := (List.sorted_cons.mp ih).2
        have ht'eq : t' = p' := List.eq_of_perm_of_sorted ht' ht'sorted hp'
        subst ht'eq
        rw [List.sorted_cons]
        refine ⟨?_, hp⟩
        intro b hb
        rcases List.mem_cons.mp hb with rfl | hb
        · exact le_of_lt hza
        · exact le_trans (le_of_lt hza) (ha b hb)
      · rw [if_neg hza]
        rw [List.sorted_cons]
        refine ⟨?_, ih⟩
        intro b hb
        have haz : a ≤ z := le_of_not_lt hza
        rcases List.mem_cons.mp hb with rfl | hb
        · exact haz
        · exact le_trans haz ((List.sorted_cons.mp ih).1 b hb)

theorem isortAux_spec : ∀ (fuel idx : Nat) (a : List Nat), idx + fuel = a.length →
    (a.take idx).Sorted (· ≤ ·) →
    (isortAux idx fuel a).Perm a ∧ (isortAux idx fuel a).Sorted (· ≤ ·)
  | 0, idx, a, hlen, hsort => by
    rw [isortAux]
    have hta : a.take idx = a := List.take_of_length_le (by omega)
    rw [hta] at hsort
    exact ⟨List.Perm.refl a, hsort⟩
  | fuel + 1, idx, a, hlen, hsort => by
    have hidx : idx < a.length := by omega
    have htake : a.take (idx + 1) = a.take idx ++ [a[idx]] := by
      rw [List.take_succ, List.getElem?_eq_getElem hidx]
      rfl
    have hsorted2 : (sortPass (a.take (idx + 1))).Sorted (· ≤ ·) := by
      rw [htake]
      exact sortPass_sorted _ _ hsort
    have hperm2 : (sortPass (a.take (idx + 1))).Perm (a.take (idx + 1)) := sortPass_perm _
    have hlen2 : (sortPass (a.take (idx + 1))).length = idx + 1 := by
      rw [hperm2.length_eq, List.length_take]
      omega
    have haperm : (sortPass (a.take (idx + 1)) ++ a.drop (idx + 1)).Perm a := by
      have h1 := hperm2.append_right (a.drop (idx + 1))
      rw [List.take_append_drop] at h1
      exact h1
    have htake' : (sortPass (a.take (idx + 1)) ++ a.drop (idx + 1)).take (idx + 1)
        = sortPass (a.take (idx + 1)) := by
      have h1 := List.take_left (sortPass (a.take (idx + 1))) (a.drop (idx + 1))
      rwa [hlen2] at h1
    have hrec := isortAux_spec fuel (idx + 1)
      (sortPass (a.take (idx + 1)) ++ a.drop (idx + 1))
      (by rw [haperm.length_eq]; omega)
      (by rw [htake']; exact hsorted2)
    rw [isortAux]
    exact ⟨hrec.1.trans haperm, hrec.2⟩

theorem insertion_sort_perm (a : List Nat) : (insertion_sort a).Perm a := by
  cases a with
  | nil => exact List.Perm.refl _
  | cons x t =>
    have : (1 : Nat) + ((x :: t).length - 1) = (x :: t).length := by
      simp only [List.length_cons]
      omega
    exact (isortAux_spec _ 1 (x :: t) this (by simp)).1

theorem insertion_sort_sorted (a : List Nat) : (insertion_sort a).Sorted (· ≤ ·) := by
  cases a with
  | nil => exact List.sorted_nil
  | cons x t =>
    have : (1 : Nat) + ((x :: t).length - 1) = (x :: t).length := by
      simp only [List.length_cons]
      omega
    exact (isortAux_spec _ 1 (x :: t) this (by simp)).2

/-- The C `insertion_sort` computes exactly the ascending sort of its
input (here Mathlib's `List.insertionSort`): both are sorted permutations
of the input. -/
theorem insertion_sort_eq (l : List Nat) :
    insertion_sort l = List.insertionSort (· ≤ ·) l :=
  List.eq_of_perm_of_sorted
    ((insertion_sort_perm l).trans (List.perm_insertionSort _ l).symm)
    (insertion_sort_sorted l)
    (List.sorted_insertionSort _ l)

/-- Sorting a list of nine equal samples and taking element 4 gives back
the sample; used for the constant-image arguments. -/
theorem insertion_sort_getD_const {l : List Nat} {k : Nat}
    (hall : ∀ x ∈ l, x = k) (hlen : 4 < l.length) :
    (insertion_sort l).getD 4 0 = k := by
  have hperm := insertion_sort_perm l
  have hlen' : 4 < (insertion_sort l).length := by
    rw [hperm.length_eq]
    exact hlen
  rw [List.getD_eq_getElem _ _ hlen']
  exact hall _ (hperm.subset (List.getElem_mem hlen'))

/-! ### The median filter fold -/

theorem matrix_to_array_length (img : Img) (width ptr : Int) :
    (matrix_to_array img width ptr).length = 9 := rfl

theorem matrix_to_array_all {im : Img} {k : Nat} (him : ∀ j, im j = k)
    (width ptr : Int) : ∀ x ∈ matrix_to_array im width ptr, x = k := by
  intro x hx
  rcases List.mem_flatMap.mp hx with ⟨y, _, hb⟩
  rcases List.mem_map.mp hb with ⟨z, _, he⟩
  rw [← he]
  exact him _

theorem medianFold_not_mem (w : Int) (L : List Int) (im : Img) (i : Int)
    (h : ∀ p ∈ L, p ≠ i) : (L.foldl (medianStep w) im) i = im i := by
  induction L generalizing im with
  | nil => rfl
  | cons p L ih =>
    rw [List.foldl_cons, ih _ (fun q hq => h q (List.mem_cons_of_mem p hq))]
    have hip : i ≠ p := fun he => h p (List.mem_cons_self p L) he.symm
    simp [medianStep, hip]

theorem medianFold_const (w : Int) (k : Nat) :
    ∀ (L : List Int) (im : Img), (∀ j, im j = k) →
      ∀ i, (L.foldl (medianStep w) im) i = k
  | [], im, him, i => him i
  | p :: L, im, him, i => by
    rw [List.foldl_cons]
    refine medianFold_const w k L (medianStep w im p) ?_ i
    intro j
    by_cases hj : j = p
    · subst hj
      simp only [medianStep, if_pos rfl]
      exact insertion_sort_getD_const (matrix_to_array_all him w j)
        (by rw [matrix_to_array_length]; omega)
    · simp [medianStep, hj, him j]

/-- The median filter maps a constant image to itself. -/
theorem median3x3_const (k : Nat) (width height : Int) :
    median3x3 (fun _ => k) width height = fun _ => k := by
  funext i
  exact medianFold_const width k (cellPtrs width height) _ (fun _ => rfl) i

/-! ### Facts about `matchMV` -/

theorem matchMV_achieves (prev curr : Img) (width posx posy : Int)
    (hp : ∀ i, prev i ≤ 255) (hc : ∀ i, curr i ≤ 255) :
    ∃ c ∈ cands,
      matchMV posx posy prev curr width
        = (sadAt prev curr width posx posy c, c.2, c.1)
      ∧ ∀ d ∈ cands,
          sadAt prev curr width posx posy c ≤ sadAt prev curr width posx posy d := by
  have hmem : ((-16 : Int), (-16 : Int)) ∈ cands := mem_cands.mpr (by norm_num)
  rcases bestFold_achieves (sadAt prev curr width posx posy) cands (INT_MAX, 0, 0)
    with h | ⟨c, hcm, hv⟩
  · exfalso
    have hle := bestFold_fst_le (sadAt prev curr width posx posy) cands
      (INT_MAX, 0, 0) _ hmem
    rw [h] at hle
    have := sadAt_le prev curr width posx posy ((-16 : Int), (-16 : Int)) hp hc
    simp only [INT_MAX] at hle
    omega
  · refine ⟨c, hcm, hv, ?_⟩
    intro d hd
    have := bestFold_fst_le (sadAt prev curr width posx posy) cands (INT_MAX, 0, 0) d hd
    rw [hv] at this
    exact this

theorem matchMV_unique_zero (prev curr : Img) (width posx posy : Int)
    (c : Int × Int) (hcm : c ∈ cands)
    (hz : sadAt prev curr width posx posy c = 0)
    (huniq : ∀ d ∈ cands, sadAt prev curr width posx posy d = 0 → d = c) :
    matchMV posx posy prev curr width = (0, c.2, c.1) := by
  have h := bestFold_last_tie (sadAt prev curr width posx posy) cands (INT_MAX, 0, 0) c
    cands_pairwise hcm (by rw [hz]; exact Nat.zero_le _)
    (fun d _ => by rw [hz]; exact Nat.zero_le _)
    (fun d hd hsd => Or.inl (huniq d hd (by rw [hsd, hz])))
  rw [matchMV, h, hz]

/-- On two identical constant images every candidate ties at SAD 0, so the
non-strict replacement makes the last-visited candidate `(mvy, mvx) =
(15, 15)` the winner, with cost 0. -/
theorem matchMV_const (k : Nat) (width posx posy : Int) :
    matchMV posx posy (fun _ => k) (fun _ => k) width = (0, 15, 15) := by
  have h := bestFold_last_tie (sadAt (fun _ => k) (fun _ => k) width posx posy) cands
    (INT_MAX, 0, 0) ((15 : Int), (15 : Int)) cands_pairwise
    (mem_cands.mpr (by norm_num))
    (by rw [sadAt_const]; exact Nat.zero_le _)
    (fun d _ => by rw [sadAt_const]; exact Nat.zero_le _)
    ?_
  · rw [matchMV, h, sadAt_const]
  · intro d hd _
    obtain ⟨d1, d2⟩ := d
    have hb := mem_cands.mp hd
    simp only at hb
    by_cases h1 : d1 = 15
    · by_cases h2 : d2 = 15
      · exact Or.inl (by rw [h1, h2])
      · exact Or.inr (Or.inr ⟨by rw [h1], by omega⟩)
    · exact Or.inr (Or.inl (by omega))

/-- Every `(x, y)` pair the search can return lies in `[-16, 15]²`. -/
theorem matchMV_components (posx posy : Int) (prev curr : Img) (width : Int) :
    -16 ≤ (matchMV posx posy prev curr width).2.1
      ∧ (matchMV posx posy prev curr width).2.1 ≤ 15
      ∧ -16 ≤ (matchMV posx posy prev curr width).2.2
      ∧ (matchMV posx posy prev curr width).2.2 ≤ 15 := by
  rcases bestFold_achieves (sadAt prev curr width posx posy) cands (INT_MAX, 0, 0)
    with h | ⟨c, hcm, hv⟩
  · rw [matchMV, h]
    norm_num
  · rw [matchMV, hv]
    dsimp only
    have hb := mem_cands.mp hcm
    exact ⟨by omega, by omega, by omega, by omega⟩

/-! ### Facts about `full_search` -/

theorem idxRange_nil {n : Int} (h : n ≤ 6) : idxRange n = [] := by
  unfold idxRange
  have h0 : (n - 6).toNat = 0 := by omega
  rw [h0]
  rfl

theorem cellList_nil {ny nx : Int} (h : nx ≤ 6 ∨ ny ≤ 6) : cellList ny nx = [] := by
  unfold cellList
  rcases h with h | h
  · rw [idxRange_nil h]
    simp
  · rw [idxRange_nil h]
    rfl

theorem full_search_cell (prev curr : Img) (width height idx idy : Int)
    (h1 : 2 ≤ idx) (h2 : idx < width.tdiv MSTEP - 4)
    (h3 : 2 ≤ idy) (h4 : idy < height.tdiv MSTEP - 4) :
    full_search prev curr width height (idy * width.tdiv MSTEP + idx)
      = (matchMV (idx * MSTEP) (idy * MSTEP) prev curr width).2 := by
  have hmem : ((idy, idx) : Int × Int) ∈ cellList (height.tdiv MSTEP) (width.tdiv MSTEP) :=
    mem_cellList.mpr ⟨⟨h3, h4⟩, ⟨h1, h2⟩⟩
  have huniq : ∀ c' ∈ cellList (height.tdiv MSTEP) (width.tdiv MSTEP),
      c'.1 * width.tdiv MSTEP + c'.2 = idy * width.tdiv MSTEP + idx → c' = (idy, idx) := by
    intro c' hc' he
    obtain ⟨hy, hx⟩ := mem_cellList.mp hc'
    have := linear_index_inj (width.tdiv MSTEP) c'.2 idx c'.1 idy (by omega) (by omega)
      (by omega) (by omega) he
    obtain ⟨c1, c2⟩ := c'
    simp only at this
    rw [Prod.mk.injEq]
    exact ⟨this.1, this.2⟩
  exact setFold_mem_unique _ _ _ _ (idy, idx) hmem huniq

theorem full_search_margin (prev curr : Img) (width height idx idy : Int)
    (h1 : 0 ≤ idx) (h2 : idx < width.tdiv MSTEP)
    (h3 : 0 ≤ idy) (h4 : idy < height.tdiv MSTEP)
    (hm : idx < 2 ∨ idy < 2 ∨ width.tdiv MSTEP - 4 ≤ idx ∨ height.tdiv MSTEP - 4 ≤ idy) :
    full_search prev curr width height (idy * width.tdiv MSTEP + idx) = (0, 0) := by
  apply setFold_not_mem
  intro c hc he
  obtain ⟨hy, hx⟩ := mem_cellList.mp hc
  have := linear_index_inj (width.tdiv MSTEP) c.2 idx c.1 idy (by omega) (by omega)
    (by omega) (by omega) he
  omega

theorem full_search_empty (prev curr : Img) (width height : Int)
    (h : width.tdiv MSTEP ≤ 6 ∨ height.tdiv MSTEP ≤ 6) (i : Int) :
    full_search prev curr width height i = (0, 0) := by
  unfold full_search
  rw [cellList_nil h]
  rfl

/-! ### Facts about the statistics fold -/

theorem statsFold_min_zero (qsqrt : Nat → ℚ) (mv : Int → Int × Int)
    (hq : ∀ n, 0 ≤ qsqrt n) :
    ∀ (l : List Nat) (st : ℚ × ℚ × ℚ), st.2.1 = 0 →
      (l.foldl (statsStep qsqrt mv) st).2.1 = 0
  | [], _, h0 => h0
  | i :: l, st, h0 => by
    rw [List.foldl_cons]
    refine statsFold_min_zero qsqrt mv hq l _ ?_
    simp only [statsStep, h0]
    rw [if_neg (not_lt.mpr (hq _))]

theorem statsFold_max_mono (qsqrt : Nat → ℚ) (mv : Int → Int × Int) :
    ∀ (l : List Nat) (st : ℚ × ℚ × ℚ), st.2.2 ≤ (l.foldl (statsStep qsqrt mv) st).2.2
  | [], _ => le_refl _
  | i :: l, st => by
    rw [List.foldl_cons]
    refine le_trans ?_ (statsFold_max_mono qsqrt mv l _)
    simp only [statsStep]
    by_cases h : st.2.2 < qsqrt ((mv (i : Int)).1 * (mv (i : Int)).1
        + (mv (i : Int)).2 * (mv (i : Int)).2).toNat
    · rw [if_pos h]
      exact le_of_lt h
    · rw [if_neg h]

theorem statsFold_max_ge (qsqrt : Nat → ℚ) (mv : Int → Int × Int) :
    ∀ (l : List Nat) (st : ℚ × ℚ × ℚ) (j : Nat), j ∈ l →
      qsqrt ((mv (j : Int)).1 * (mv (j : Int)).1
        + (mv (j : Int)).2 * (mv (j : Int)).2).toNat
        ≤ (l.foldl (statsStep qsqrt mv) st).2.2
  | [], _, j, hj => absurd hj (List.not_mem_nil j)
  | i :: l, st, j, hj => by
    rw [List.foldl_cons]
    rcases List.mem_cons.mp hj with rfl | hmem
    · refine le_trans ?_ (statsFold_max_mono qsqrt mv l _)
      simp only [statsStep]
      by_cases h : st.2.2 < qsqrt ((mv (j : Int)).1 * (mv (j : Int)).1
          + (mv (j : Int)).2 * (mv (j : Int)).2).toNat
      · rw [if_pos h]
      · rw [if_neg h]
        exact le_of_not_lt h
    · exact statsFold_max_ge qsqrt mv l _ j hmem

theorem statsFold_total_mono (qsqrt : Nat → ℚ) (mv : Int → Int × Int)
    (hq : ∀ n, 0 ≤ qsqrt n) :
    ∀ (l : List Nat) (st : ℚ × ℚ × ℚ), st.1 ≤ (l.foldl (statsStep qsqrt mv) st).1
  | [], _ => le_refl _
  | i :: l, st => by
    rw [List.foldl_cons]
    refine le_trans ?_ (statsFold_total_mono qsqrt mv hq l _)
    simp only [statsStep]
    have := hq ((mv (i : Int)).1 * (mv (i : Int)).1
        + (mv (i : Int)).2 * (mv (i : Int)).2).toNat
    linarith

theorem statsFold_total_ge (qsqrt : Nat → ℚ) (mv : Int → Int × Int)
    (hq : ∀ n, 0 ≤ qsqrt n) :
    ∀ (l : List Nat) (st : ℚ × ℚ × ℚ) (j : Nat), j ∈ l → 0 ≤ st.1 →
      qsqrt ((mv (j : Int)).1 * (mv (j : Int)).1
        + (mv (j : Int)).2 * (mv (j : Int)).2).toNat
        ≤ (l.foldl (statsStep qsqrt mv) st).1
  | [], _, j, hj, _ => absurd hj (List.not_mem_nil j)
  | i :: l, st, j, hj, hst => by
    rw [List.foldl_cons]
    rcases List.mem_cons.mp hj with rfl | hmem
    · refine le_trans ?_ (statsFold_total_mono qsqrt mv hq l _)
      simp only [statsStep]
      linarith
    · refine statsFold_total_ge qsqrt mv hq l _ j hmem ?_
      simp only [statsStep]
      have := hq ((mv (i : Int)).1 * (mv (i : Int)).1
          + (mv (i : Int)).2 * (mv (i : Int)).2).toNat
      linarith

/-! ### Claim theorems -/

/-- A candidate no later than `(15, 15)` in visiting order: `(15, 15)` is
the last candidate `match` visits. -/
theorem cands_le_last {d : Int × Int} (hd : d ∈ cands) :
    d = ((15 : Int), (15 : Int)) ∨ lexLt d (15, 15) := by
  obtain ⟨d1, d2⟩ := d
  have hb := mem_cands.mp hd
  simp only at hb
  by_cases h1 : d1 = 15
  · by_cases h2 : d2 = 15
    · exact Or.inl (by rw [h1, h2])
    · exact Or.inr (Or.inr ⟨by rw [h1], by omega⟩)
  · exact Or.inr (Or.inl (by omega))

set_option maxRecDepth 40000 in
/-- C1: for every valid input (8-bit sample buffers), `match` evaluates the
SAD of all 1024 displacements `(mvy, mvx) ∈ [-16,15]²` — candidate block in
`prev` at `(posx+mvx, posy+mvy)`, fixed block in `curr` at `(posx, posy)` —
and returns a displacement whose SAD equals the returned cost and is less
than or equal to the SAD of every candidate; if exactly one candidate
attains cost 0, `match` returns it with cost 0. -/
theorem match_minimizes (prev curr : Img) (width posx posy : Int)
    (hp : ∀ i, prev i ≤ 255) (hc : ∀ i, curr i ≤ 255) :
    (∀ c : Int × Int, c ∈ cands ↔ -16 ≤ c.1 ∧ c.1 < 16 ∧ -16 ≤ c.2 ∧ c.2 < 16)
    ∧ cands.length = 1024
    ∧ (∃ c ∈ cands,
        matchMV posx posy prev curr width
          = (sadAt prev curr width posx posy c, c.2, c.1)
        ∧ ∀ d ∈ cands,
            sadAt prev curr width posx posy c ≤ sadAt prev curr width posx posy d)
    ∧ (∀ c ∈ cands, sadAt prev curr width posx posy c = 0 →
        (∀ d ∈ cands, sadAt prev curr width posx posy d = 0 → d = c) →
        matchMV posx posy prev curr width = (0, c.2, c.1)) :=
  ⟨fun _ => mem_cands, by decide, matchMV_achieves prev curr width posx posy hp hc,
   fun c hcm hz huniq => matchMV_unique_zero prev curr width posx posy c hcm hz huniq⟩

theorem match_minimizes_witness :
    (∀ c : Int × Int, c ∈ cands ↔ -16 ≤ c.1 ∧ c.1 < 16 ∧ -16 ≤ c.2 ∧ c.2 < 16)
    ∧ cands.length = 1024
    ∧ (∃ c ∈ cands,
        matchMV 16 16 (fun _ => 0) (fun _ => 0) 64
          = (sadAt (fun _ => 0) (fun _ => 0) 64 16 16 c, c.2, c.1)
        ∧ ∀ d ∈ cands,
            sadAt (fun _ => 0) (fun _ => 0) 64 16 16 c
              ≤ sadAt (fun _ => 0) (fun _ => 0) 64 16 16 d)
    ∧ (∀ c ∈ cands, sadAt (fun _ => 0) (fun _ => 0) 64 16 16 c = 0 →
        (∀ d ∈ cands, sadAt (fun _ => 0) (fun _ => 0) 64 16 16 d = 0 → d = c) →
        matchMV 16 16 (fun _ => 0) (fun _ => 0) 64 = (0, c.2, c.1)) :=
  match_minimizes (fun _ => 0) (fun _ => 0) 64 16 16
    (fun _ => Nat.zero_le 255) (fun _ => Nat.zero_le 255)

/-- C2: the running best of `match` is replaced on a non-strict `<=`
comparison, with candidates visited `mvy` ascending outer, `mvx` ascending
inner; hence whenever a candidate `c` attains the minimum SAD and every
tying candidate is at or before `c` in that raster order (`c` is the
lexicographically largest tied `(mvy, mvx)`), the returned displacement is
exactly `c` — the last-visited tied candidate. -/
theorem match_tie_last (prev curr : Img) (width posx posy : Int)
    (hp : ∀ i, prev i ≤ 255) (hc : ∀ i, curr i ≤ 255)
    (c : Int × Int) (hcm : c ∈ cands)
    (hmin : ∀ d ∈ cands,
      sadAt prev curr width posx posy c ≤ sadAt prev curr width posx posy d)
    (hlast : ∀ d ∈ cands,
      sadAt prev curr width posx posy d = sadAt prev curr width posx posy c →
        d = c ∨ lexLt d c) :
    matchMV posx posy prev curr width
      = (sadAt prev curr width posx posy c, c.2, c.1) := by
  apply bestFold_last_tie _ _ _ _ cands_pairwise hcm ?_ hmin hlast
  have := sadAt_le prev curr width posx posy c hp hc
  simp only [INT_MAX]
  omega

theorem match_tie_last_witness :
    matchMV 16 16 (fun _ => 0) (fun _ => 0) 64
      = (sadAt (fun _ => 0) (fun _ => 0) 64 16 16 (15, 15), 15, 15) :=
  match_tie_last (fun _ => 0) (fun _ => 0) 64 16 16
    (fun _ => Nat.zero_le 255) (fun _ => Nat.zero_le 255)
    (15, 15) (mem_cands.mpr (by norm_num))
    (fun d _ => by rw [sadAt_const]; exact Nat.zero_le _)
    (fun d hd _ => cands_le_last hd)

/-- C3: `estimateMotion` (= `full_search` over the zero-initialized field)
computes a vector only for grid cells `(idx, idy)` with `idx ∈ [2, nx-5]`
and `idy ∈ [2, ny-5]`, invoking `match` at anchor `(idx*MSTEP, idy*MSTEP)`
and storing the result at linear index `idy*nx + idx`; every grid cell
with `idx < 2`, `idy < 2`, `idx ≥ nx-4` or `idy ≥ ny-4` equals the zero
vector. -/
theorem full_search_grid (prev curr : Img) (width height idx idy : Int) :
    (2 ≤ idx → idx < width.tdiv MSTEP - 4 → 2 ≤ idy → idy < height.tdiv MSTEP - 4 →
      full_search prev curr width height (idy * width.tdiv MSTEP + idx)
        = (matchMV (idx * MSTEP) (idy * MSTEP) prev curr width).2)
    ∧ (0 ≤ idx → idx < width.tdiv MSTEP → 0 ≤ idy → idy < height.tdiv MSTEP →
        (idx < 2 ∨ idy < 2 ∨ width.tdiv MSTEP - 4 ≤ idx ∨ height.tdiv MSTEP - 4 ≤ idy) →
        full_search prev curr width height (idy * width.tdiv MSTEP + idx) = (0, 0)) :=
  ⟨fun h1 h2 h3 h4 => full_search_cell prev curr width height idx idy h1 h2 h3 h4,
   fun h1 h2 h3 h4 hm => full_search_margin prev curr width height idx idy h1 h2 h3 h4 hm⟩

theorem full_search_grid_witness :
    full_search (fun _ => 0) (fun _ => 0) 80 80 22
      = (matchMV 16 16 (fun _ => 0) (fun _ => 0) 80).2
    ∧ full_search (fun _ => 0) (fun _ => 0) 80 80 0 = (0, 0) := by
  have e : (80 : Int).tdiv MSTEP = 10 := by decide
  have h22 := (full_search_grid (fun _ => 0) (fun _ => 0) 80 80 2 2).1
    (by norm_num) (by rw [e]; norm_num) (by norm_num) (by rw [e]; norm_num)
  have h0 := (full_search_grid (fun _ => 0) (fun _ => 0) 80 80 0 0).2
    (by norm_num) (by rw [e]; norm_num) (by norm_num) (by rw [e]; norm_num)
    (Or.inl (by norm_num))
  rw [e] at h22 h0
  norm_num at h22 h0
  refine ⟨?_, h0⟩
  have e2 : (2 : Int) * MSTEP = 16 := by decide
  rw [e2] at h22
  exact h22

/-- C4: the median filter replaces each interior pixel, scanned row-major
left to right, by the 5th smallest value of its 3x3 neighborhood sorted
ascending, with the neighborhood read from the current in-place buffer;
the output equals exactly the spec-worded in-place process
(`medianFilterSpec`, which uses the ascending sort directly). -/
theorem median3x3_eq_spec (image : Img) (width height : Int) :
    median3x3 image width height = medianFilterSpec image width height := by
  have hstep : medianStep = medianStepSpec := by
    funext w im ptr i
    simp only [medianStep, medianStepSpec, insertion_sort_eq]
  rw [median3x3, medianFilterSpec, hstep]

/-- C5: the median filter leaves every border pixel (row 0, row height-1,
column 0, column width-1) unchanged; only interior pixels are written. -/
theorem median3x3_border (image : Img) (width height row col : Int)
    (hr0 : 0 ≤ row) (hr1 : row < height) (hc0 : 0 ≤ col) (hc1 : col < width)
    (hborder : row = 0 ∨ row = height - 1 ∨ col = 0 ∨ col = width - 1) :
    median3x3 image width height (row * width + col) = image (row * width + col) := by
  apply medianFold_not_mem
  intro p hp he
  rcases mem_cellPtrs.mp hp with ⟨r, c, hr, hc, rfl⟩
  have := linear_index_inj width c col r row (by omega) (by omega) (by omega) (by omega) he
  omega

theorem median3x3_border_witness :
    median3x3 (fun i => i.toNat) 3 3 (0 * 3 + 0) = (fun i : Int => i.toNat) (0 * 3 + 0) :=
  median3x3_border (fun i => i.toNat) 3 3 0 0
    (by norm_num) (by norm_num) (by norm_num) (by norm_num) (Or.inl rfl)

/-- C6: `compute_statistics` reports `min = 0` for every field: `min`
starts at 0 and is lowered only when a magnitude is strictly below it, and
magnitudes (outputs of the square-root routine, abstracted as any
nonnegative-valued `qsqrt`) are never negative. -/
theorem compute_statistics_min_zero (qsqrt : Nat → ℚ) (mv : Int → Int × Int)
    (size : Nat) (hq : ∀ n, 0 ≤ qsqrt n) :
    (compute_statistics qsqrt mv size).2.1 = 0 := by
  simp only [compute_statistics]
  exact statsFold_min_zero qsqrt mv hq (List.range size) (0, 0, 0) rfl

theorem compute_statistics_min_zero_witness :
    (compute_statistics (fun n => (n : ℚ)) (fun _ => (3, 4)) 2).2.1 = 0 :=
  compute_statistics_min_zero (fun n => (n : ℚ)) (fun _ => (3, 4)) 2
    (fun n => Nat.cast_nonneg n)

/-- C7 (counterexample): for two identical 64×64 constant frames the full
pipeline does NOT return the zero vector at the interior grid cell
`(idx, idy) = (2, 2)` (field index `2*8+2 = 18`): all 1024 candidates tie
at SAD 0 and the non-strict tie-break returns the last candidate
`(15, 15)`. -/
theorem pipeline_const_counterexample :
    full_search (median3x3 (fun _ => 0) 64 64) (median3x3 (fun _ => 0) 64 64) 64 64 18
      = (15, 15)
    ∧ full_search (median3x3 (fun _ => 0) 64 64) (median3x3 (fun _ => 0) 64 64) 64 64 18
        ≠ (0, 0) := by
  have hm := median3x3_const 0 64 64
  rw [hm]
  have e : (64 : Int).tdiv MSTEP = 8 := by decide
  have h := full_search_cell (fun _ => 0) (fun _ => 0) 64 64 2 2
    (by norm_num) (by rw [e]; norm_num) (by norm_num) (by rw [e]; norm_num)
  rw [e] at h
  norm_num at h
  have e2 : (2 : Int) * MSTEP = 16 := by decide
  rw [e2, matchMV_const] at h
  exact ⟨h, by rw [h]; decide⟩

/-- C7 (amended): for two identical 64×64 constant-valued frames the
pipeline (median filter both frames, then `full_search`) yields a motion
field whose every interior (computed) motion vector is `(15, 15)` — the
last-visited candidate, since all 1024 SADs tie at 0 — not `(0, 0)`;
margin cells are the zero vector; consequently, for any nonnegative
magnitude function, the reported max magnitude is at least the magnitude
of `(15, 15)` (argument `15² + 15² = 450`), and the reported mean is
positive whenever that magnitude is, so mean and max are not 0. -/
theorem pipeline_const_frames (k : Nat) (qsqrt : Nat → ℚ) (idx idy : Int)
    (hq : ∀ n, 0 ≤ qsqrt n) :
    (2 ≤ idx → idx < 4 → 2 ≤ idy → idy < 4 →
      full_search (median3x3 (fun _ => k) 64 64) (median3x3 (fun _ => k) 64 64) 64 64
        (idy * 8 + idx) = (15, 15))
    ∧ (0 ≤ idx → idx < 8 → 0 ≤ idy → idy < 8 →
        (idx < 2 ∨ idy < 2 ∨ 4 ≤ idx ∨ 4 ≤ idy) →
        full_search (median3x3 (fun _ => k) 64 64) (median3x3 (fun _ => k) 64 64) 64 64
          (idy * 8 + idx) = (0, 0))
    ∧ qsqrt 450 ≤ (compute_statistics qsqrt
        (full_search (median3x3 (fun _ => k) 64 64) (median3x3 (fun _ => k) 64 64) 64 64)
        64).2.2
    ∧ (0 < qsqrt 450 →
        0 < (compute_statistics qsqrt
          (full_search (median3x3 (fun _ => k) 64 64) (median3x3 (fun _ => k) 64 64) 64 64)
          64).1) := by
  have hm := median3x3_const k 64 64
  rw [hm]
  have e : (64 : Int).tdiv MSTEP = 8 := by decide
  have e2 : (2 : Int) * MSTEP = 16 := by decide
  have hcell : ∀ ix iy : Int, 2 ≤ ix → ix < 4 → 2 ≤ iy → iy < 4 →
      full_search (fun _ => k) (fun _ => k) 64 64 (iy * 8 + ix) = (15, 15) := by
    intro ix iy h1 h2 h3 h4
    have h := full_search_cell (fun _ => k) (fun _ => k) 64 64 ix iy
      h1 (by rw [e]; omega) h3 (by rw [e]; omega)
    rw [e, matchMV_const] at h
    exact h
  have hF : full_search (fun _ => k) (fun _ => k) 64 64 (((18 : Nat) : Int)) = (15, 15) := by
    have h := hcell 2 2 (by norm_num) (by norm_num) (by norm_num) (by norm_num)
    norm_num at h ⊢
    exact h
  refine ⟨fun h1 h2 h3 h4 => hcell idx idy h1 h2 h3 h4, ?_, ?_, ?_⟩
  · intro h1 h2 h3 h4 hedge
    have h := full_search_margin (fun _ => k) (fun _ => k) 64 64 idx idy
      h1 (by rw [e]; omega) h3 (by rw [e]; omega) (by rw [e]; omega)
    rw [e] at h
    exact h
  · have hmax := statsFold_max_ge qsqrt (full_search (fun _ => k) (fun _ => k) 64 64)
      (List.range 64) (0, 0, 0) 18 (by simp)
    rw [hF] at hmax
    norm_num at hmax
    simp only [compute_statistics]
    exact hmax
  · intro hpos
    have htot := statsFold_total_ge qsqrt (full_search (fun _ => k) (fun _ => k) 64 64)
      hq (List.range 64) (0, 0, 0) 18 (by simp) (le_refl 0)
    rw [hF] at htot
    norm_num at htot
    simp only [compute_statistics]
    refine div_pos (lt_of_lt_of_le hpos htot) (by norm_num)

theorem pipeline_const_frames_witness :
    full_search (median3x3 (fun _ => 0) 64 64) (median3x3 (fun _ => 0) 64 64) 64 64
      (2 * 8 + 2) = (15, 15)
    ∧ (450 : ℚ) ≤ (compute_statistics (fun n => (n : ℚ))
        (full_search (median3x3 (fun _ => 0) 64 64) (median3x3 (fun _ => 0) 64 64) 64 64)
        64).2.2 := by
  have h := pipeline_const_frames 0 (fun n => (n : ℚ)) 2 2 (fun n => Nat.cast_nonneg n)
  refine ⟨h.1 (by norm_num) (by norm_num) (by norm_num) (by norm_num), ?_⟩
  have := h.2.2.1
  norm_num at this
  exact this

/-- C9: every entry of every motion field produced by `full_search` has
both displacement components in `[-16, 15]` (so each fits the signed 8-bit
`MVector` storage without truncation): computed cells receive values from
the loop variables of `match`, margin cells are the zero vector. -/
theorem full_search_components (prev curr : Img) (width height i : Int) :
    -16 ≤ (full_search prev curr width height i).1
    ∧ (full_search prev curr width height i).1 ≤ 15
    ∧ -16 ≤ (full_search prev curr width height i).2
    ∧ (full_search prev curr width height i).2 ≤ 15 := by
  unfold full_search
  rcases setFold_range (fun cell : Int × Int => cell.1 * (width.tdiv MSTEP) + cell.2)
    (fun cell => (matchMV (cell.2 * MSTEP) (cell.1 * MSTEP) prev curr width).2)
    (cellList (height.tdiv MSTEP) (width.tdiv MSTEP)) (fun _ => ((0 : Int), (0 : Int)))
    i with h | ⟨c, _, hv⟩
  · rw [h]
    norm_num
  · rw [hv]
    exact matchMV_components (c.2 * MSTEP) (c.1 * MSTEP) prev curr width

/-- C10: when `width/MSTEP ≤ 6` or `height/MSTEP ≤ 6` (e.g. any frame
narrower or shorter than 56 pixels) both grid loops of `full_search` are
empty — the visited cell list is empty — and the returned motion field is
entirely the zero vector. -/
theorem full_search_small (prev curr : Img) (width height : Int)
    (h : width.tdiv MSTEP ≤ 6 ∨ height.tdiv MSTEP ≤ 6) :
    cellList (height.tdiv MSTEP) (width.tdiv MSTEP) = []
    ∧ ∀ i : Int, full_search prev curr width height i = (0, 0) :=
  ⟨cellList_nil h, fun i => full_search_empty prev curr width height h i⟩

theorem full_search_small_witness :
    cellList ((48 : Int).tdiv MSTEP) ((48 : Int).tdiv MSTEP) = []
    ∧ ∀ i : Int, full_search (fun _ => 0) (fun _ => 0) 48 48 i = (0, 0) :=
  full_search_small (fun _ => 0) (fun _ => 0) 48 48 (Or.inl (by decide))
